import Mathlib

/-!
Verification of `rpc-error-handler`.

The repository is an article with JavaScript snippets about handling RPC
errors: promise-combinator patterns (`Promise.all` / `Promise.race` /
`Promise.any`) over per-endpoint request wrappers, and recursive retry
wrappers.  The specification additionally defines a sequential
multi-endpoint dispatcher with per-endpoint retry, backoff delays and
cancellation, generalized from these snippets; that dispatcher has no
implementation in the repository, so it is modelled here from the spec.

A settled JavaScript promise is embedded as its outcome `Except ε α`
(`.ok` = fulfilled, `.error` = rejected): a promise in the snippets is
created once and its outcome never changes afterwards, so awaiting it any
number of times observes the same `Except` value.
-/

namespace RpcErrorHandler

variable {α ε : Type}

/-- Embeds `wrapRPCPromise` from `src/ethers-examples/wrappers.js` (lines
86–95): awaits the promise; on fulfillment returns the object
`{ result: data, origin }`; on rejection the `catch` block returns
(fulfills with) `new Error('Ops, there was an issue')` instead of
rethrowing.  The fulfilled JavaScript value is one of two shapes. -/
inductive WrapAllValue (α : Type) where
  | resultObj (result : α) (origin : String)
  | errorObj (msg : String)
deriving DecidableEq

def wrapRPCPromise (promise : Except ε α) (origin : String) :
    Except ε (WrapAllValue α) :=
  match promise with
  | .ok data => .ok (.resultObj data origin)
  | .error _ => .ok (.errorObj "Ops, there was an issue")

/-- The `{ result, origin }` object returned by the wrappers on success. -/
structure RPCResult (α : Type) where
  result : α
  origin : String
deriving DecidableEq

/-- Embeds `wrapRPCPromiseWithReject` from `src/ethers-examples/wrappers.js`
(lines 102–111): on fulfillment returns `{ result: data, origin }`; on
rejection returns `Promise.reject(error)`, i.e. stays rejected. -/
def wrapRPCPromiseWithReject (promise : Except ε α) (origin : String) :
    Except ε (RPCResult α) :=
  match promise with
  | .ok data => .ok ⟨data, origin⟩
  | .error e => .error e

/-- Embeds `retryRPCPromise` from `src/ethers-examples/wrappers.js` (lines
118–135): awaits the same `promise` argument; on rejection, rejects when
`retriesLeft === 0`, otherwise recurses on the very same promise with
`retriesLeft - 1`. -/
def retryRPCPromise (promise : Except ε α) : Nat → Except ε α
  | 0 =>
    match promise with
    | .ok data => .ok data
    | .error e => .error e
  | left + 1 =>
    match promise with
    | .ok data => .ok data
    | .error _ => retryRPCPromise promise left

/-- Embeds `retryRPCPromiseWithDelay` from `src/ethers-examples/wrappers.js`
(lines 154–174): same shape as `retryRPCPromise` but each retry first
awaits `wait(delay)` and recurses with the hard-coded delay `1000`.  The
second component records the milliseconds waited, in order. -/
def retryRPCPromiseWithDelay (promise : Except ε α) :
    Nat → Nat → Except ε α × List Nat
  | 0, _ =>
    match promise with
    | .ok data => (.ok data, [])
    | .error e => (.error e, [])
  | left + 1, delay =>
    match promise with
    | .ok data => (.ok data, [])
    | .error _ =>
      let r := retryRPCPromiseWithDelay promise left 1000
      (r.1, delay :: r.2)

/-- Embeds the value semantics of `Promise.any` as used in
`src/ethers-examples/promiseAny.js`: the list holds the settled outcomes of
the input promises (in completion order); the combined promise fulfills
with the value of a fulfilled input if there is one, and rejects with the
aggregate of all rejection reasons only when every input rejected. -/
def promiseAny : List (Except ε α) → Except (List ε) α
  | [] => .error []
  | x :: rest =>
    match x with
    | .ok v => .ok v
    | .error e =>
      match promiseAny rest with
      | .ok v => .ok v
      | .error es => .error (e :: es)

/-- Embeds the value semantics of `Promise.all` as used in
`src/ethers-examples/promiseAll.js`: fulfills with the list of values when
every input fulfills, rejects with the reason of a rejected input
otherwise. -/
def promiseAll : List (Except ε α) → Except ε (List α)
  | [] => .ok []
  | x :: rest =>
    match x with
    | .error e => .error e
    | .ok v =>
      match promiseAll rest with
      | .error e => .error e
      | .ok vs => .ok (v :: vs)

theorem promiseAny_nil : promiseAny ([] : List (Except ε α)) = .error [] := rfl

theorem promiseAny_cons_ok (v : α) (l : List (Except ε α)) :
    promiseAny (.ok v :: l) = .ok v := rfl

theorem promiseAny_cons_error (e : ε) (l : List (Except ε α)) :
    promiseAny (.error e :: l) =
      match promiseAny l with
      | .ok v => .ok v
      | .error es => .error (e :: es) := rfl

theorem promiseAll_cons_ok (v : α) (l : List (Except ε α)) :
    promiseAll (.ok v :: l) =
      match promiseAll l with
      | .error e => .error e
      | .ok vs => .ok (v :: vs) := rfl

/-- If some element of the completion list is fulfilled, `promiseAny`
fulfills, with the value of a fulfilled element. -/
theorem promiseAny_ok_of_mem (l : List (Except ε α))
    (h : ∃ v, Except.ok v ∈ l) :
    ∃ v, promiseAny l = .ok v ∧ Except.ok v ∈ l := by
  induction l with
  | nil =>
    obtain ⟨v, hv⟩ := h
    exact absurd hv (List.not_mem_nil _)
  | cons x rest ih =>
    cases x with
    | ok v => exact ⟨v, promiseAny_cons_ok v rest, List.mem_cons_self _ _⟩
    | error e =>
      obtain ⟨v, hv⟩ := h
      rcases List.mem_cons.mp hv with hhd | htl
      · exact absurd hhd.symm (by simp)
      · obtain ⟨v2, hres, hmem⟩ := ih ⟨v, htl⟩
        refine ⟨v2, ?_, List.mem_cons_of_mem _ hmem⟩
        rw [promiseAny_cons_error, hres]

/-- If `promiseAny` rejects, every element of the completion list was
rejected. -/
theorem promiseAny_error_all (l : List (Except ε α)) :
    ∀ es, promiseAny l = .error es → ∀ x ∈ l, ∃ e, x = .error e := by
  induction l with
  | nil => intro es _ x hx; exact absurd hx (List.not_mem_nil x)
  | cons x rest ih =>
    intro es hes y hy
    cases x with
    | ok v => rw [promiseAny_cons_ok] at hes; exact absurd hes (by simp)
    | error e =>
      rw [promiseAny_cons_error] at hes
      rcases List.mem_cons.mp hy with hhd | htl
      · exact ⟨e, hhd⟩
      · rcases hrest : promiseAny rest with es2 | v2
        · exact ih es2 hrest y htl
        · rw [hrest] at hes; simp at hes

/-- C4: the retry wrappers re-await the same settled promise on every
retry, so their result always equals the promise's own outcome: a
fulfilled promise yields its value, and a rejected promise makes every
retry observe the same rejection, which is ultimately surfaced — a retry
never converts a failed first attempt into a success. -/
theorem retry_wrappers_preserve_outcome (promise : Except ε α)
    (retriesLeft delay : Nat) :
    retryRPCPromise promise retriesLeft = promise ∧
    (retryRPCPromiseWithDelay promise retriesLeft delay).1 = promise := by
  constructor
  · induction retriesLeft with
    | zero => cases promise <;> rfl
    | succ n ih =>
      cases promise with
      | ok d => rfl
      | error e => simpa only [retryRPCPromise] using ih
  · induction retriesLeft generalizing delay with
    | zero => cases promise <;> rfl
    | succ n ih =>
      cases promise with
      | ok d => rfl
      | error e => simpa only [retryRPCPromiseWithDelay] using ih 1000

/-- C10: `wrapRPCPromise` never rejects: it always fulfills, with
`{ result, origin }` when the input promise fulfills and with an `Error`
object as fulfilled value when the input promise rejects; consequently
`Promise.all` over wrapped promises never rejects either, and the caller
must inspect each fulfilled value to tell success from failure. -/
theorem wrapRPCPromise_never_rejects (p : Except ε α) (origin : String) :
    (∃ v, wrapRPCPromise p origin = .ok v) ∧
    (∀ d, p = .ok d → wrapRPCPromise p origin = .ok (.resultObj d origin)) ∧
    (∀ e, p = .error e →
      wrapRPCPromise p origin = .ok (.errorObj "Ops, there was an issue")) ∧
    (∀ l : List (Except ε α × String),
      ∃ vs, promiseAll (l.map fun po => wrapRPCPromise po.1 po.2) = .ok vs) := by
  refine ⟨?_, ?_, ?_, ?_⟩
  · cases p <;> exact ⟨_, rfl⟩
  · intro d hd; subst hd; rfl
  · intro e he; subst he; rfl
  · intro l
    induction l with
    | nil => exact ⟨[], rfl⟩
    | cons po rest ih =>
      obtain ⟨vs, hvs⟩ := ih
      obtain ⟨p1, o1⟩ := po
      cases p1 with
      | ok d =>
        refine ⟨.resultObj d o1 :: vs, ?_⟩
        simp only [List.map_cons]
        show promiseAll (Except.ok (WrapAllValue.resultObj d o1) :: _) = _
        rw [promiseAll_cons_ok, hvs]
      | error e =>
        refine ⟨.errorObj "Ops, there was an issue" :: vs, ?_⟩
        simp only [List.map_cons]
        show promiseAll
          (Except.ok (WrapAllValue.errorObj "Ops, there was an issue") :: _) = _
        rw [promiseAll_cons_ok, hvs]

/-- Witness for `wrapRPCPromise_never_rejects` at a rejected input
promise. -/
theorem wrapRPCPromise_never_rejects_w :
    wrapRPCPromise (Except.error "boom" : Except String Nat) "nodeA" =
      .ok (.errorObj "Ops, there was an issue") ∧
    (∃ vs, promiseAll
        ([((Except.error "boom" : Except String Nat), "nodeA"),
          (Except.ok 7, "nodeB")].map fun po => wrapRPCPromise po.1 po.2) =
      .ok vs) :=
  ⟨(wrapRPCPromise_never_rejects (Except.error "boom") "nodeA").2.2.1 "boom" rfl,
   (wrapRPCPromise_never_rejects (Except.error "boom") "nodeA").2.2.2 _⟩

/-- C9: under the `firstSuccess` policy (`Promise.any` over
promises wrapped with `wrapRPCPromiseWithReject`), the combined result is
the `{ result, origin }` of an attempt that succeeded whenever at least
one attempt succeeds, and the combined result is a failure only when every
attempt fails. -/
theorem promiseAny_firstSuccess (attempts : List (Except ε α × String)) :
    ((∃ po ∈ attempts, ∃ v, po.1 = .ok v) →
      ∃ v o, promiseAny (attempts.map fun po =>
          wrapRPCPromiseWithReject po.1 po.2) = .ok (⟨v, o⟩ : RPCResult α) ∧
        (Except.ok v, o) ∈ attempts) ∧
    (∀ es, promiseAny (attempts.map fun po =>
        wrapRPCPromiseWithReject po.1 po.2) = .error es →
      ∀ po ∈ attempts, ∃ e, po.1 = .error e) := by
  constructor
  · rintro ⟨po, hpo, v, hv⟩
    have hmem : Except.ok (⟨v, po.2⟩ : RPCResult α) ∈
        attempts.map fun po => wrapRPCPromiseWithReject po.1 po.2 := by
      refine List.mem_map.mpr ⟨po, hpo, ?_⟩
      rw [show po = (po.1, po.2) from rfl, hv]
      rfl
    obtain ⟨w, hres, hwmem⟩ :=
      promiseAny_ok_of_mem _ ⟨⟨v, po.2⟩, hmem⟩
    obtain ⟨qo, hqmem, hq⟩ := List.mem_map.mp hwmem
    refine ⟨w.result, w.origin, by simpa using hres, ?_⟩
    rcases hq1 : qo.1 with e2 | d
    · rw [show qo = (qo.1, qo.2) from rfl, hq1] at hq
      simp only [wrapRPCPromiseWithReject] at hq
      cases hq
    · rw [show qo = (qo.1, qo.2) from rfl, hq1] at hq hqmem
      simp only [wrapRPCPromiseWithReject] at hq
      cases hq
      simpa using hqmem
  · intro es hes po hpo
    have hall := promiseAny_error_all _ es hes
      (wrapRPCPromiseWithReject po.1 po.2)
      (List.mem_map.mpr ⟨po, hpo, rfl⟩)
    obtain ⟨e, he⟩ := hall
    rcases hp1 : po.1 with e2 | d
    · exact ⟨e2, rfl⟩
    · rw [hp1] at he
      simp only [wrapRPCPromiseWithReject] at he
      exact Except.noConfusion he

/-- Witness for `promiseAny_firstSuccess`: one failing and one succeeding
attempt; the combined outcome is the successful one. -/
theorem promiseAny_firstSuccess_w :
    ∃ v o, promiseAny
        ([((Except.error "down" : Except String Nat), "nodeA"),
          (Except.ok 42, "nodeB")].map fun po =>
          wrapRPCPromiseWithReject po.1 po.2) = .ok (⟨v, o⟩ : RPCResult Nat) ∧
      (Except.ok v, o) ∈
        [((Except.error "down" : Except String Nat), "nodeA"),
          (Except.ok 42, "nodeB")] :=
  (promiseAny_firstSuccess _).1
    ⟨(Except.ok 42, "nodeB"), by simp, 42, rfl⟩

/-!
## The Dispatcher

Modelled from the spec: the repository contains no implementation of the
multi-endpoint Dispatcher of spec §4.1 (the snippets only show its
ingredients: per-endpoint wrappers, recursive retries, a fallback
provider), so `dispatch` below follows the spec's words.

* An `Endpoint` is an opaque identifier, embedded as `String`.
* Durations are milliseconds, embedded as `Nat`.
* The request factory is embedded as `String → Nat → Except ε α`: the
  outcome of awaiting the request built for an endpoint at a given
  attempt number (re-invoked on every attempt, per spec §4.1 step 2).
* The trace of observable actions (attempts issued, delays waited,
  cancellation observed) is returned alongside the outcome.
* Cancellation is embedded as `cancelAt : Option Nat`: the dispatch is
  cancelled while waiting out the delay with that global index (delays
  are counted from 0 across the whole dispatch); `none` means the caller
  never cancels.  Per spec §4.1/§7, cancellation is observed at the
  cancellable delay wait; on observation the dispatch stops with
  `CancelledError`.
-/

/-- Modelled from the spec (§3): `RetryPolicy`. -/
structure RetryPolicy where
  maxAttempts : Nat
  initialDelay : Nat
  delayGrowth : Nat
  maxDelay : Nat
deriving DecidableEq

/-- Modelled from the spec (§3, §7): `DispatchOutcome`, extended with the
two error outcomes of §7 that reach the caller. -/
inductive DispatchOutcome (α ε : Type) where
  | Success (value : α) (originEndpoint : String)
  | Failure (lastError : ε) (attemptedEndpoints : List String)
  | ConfigurationError
  | CancelledError
deriving DecidableEq

/-- One observable action of a dispatch. -/
inductive DispatchEvent where
  | attempt (endpoint : String) (attemptNumber : Nat)
  | delayWait (ms : Nat)
  | cancelObserved
deriving DecidableEq

/-- The attempts recorded in a trace, in order. -/
def attemptsOf (tr : List DispatchEvent) : List (String × Nat) :=
  tr.filterMap fun ev =>
    match ev with
    | .attempt ep a => some (ep, a)
    | _ => none

/-- The delays recorded in a trace, in order. -/
def delaysOf (tr : List DispatchEvent) : List Nat :=
  tr.filterMap fun ev =>
    match ev with
    | .delayWait d => some d
    | _ => none

/-- Modelled from the spec (§4.1 step 4): the backoff delay after a failed
attempt, `min(initialDelay * delayGrowth^attempt, maxDelay)`. -/
def delayFor (policy : RetryPolicy) (attempt : Nat) : Nat :=
  min (policy.initialDelay * policy.delayGrowth ^ attempt) policy.maxDelay

/-- Result of running the retry loop against a single endpoint. -/
inductive AttemptResult (α ε : Type) where
  | ok (v : α)
  | err (e : ε)
  | cancelled

/-- Modelled from the spec (§4.1 steps 2–5): the retry loop against one
endpoint.  `a` is the current attempt number, `fuel` the number of
retries still allowed for this endpoint (`maxAttempts - 1` at entry, so
that an endpoint is attempted `max maxAttempts 1` times), `dc` the
global index of the next delay.  Returns the result, the trace, and the
updated delay index. -/
def tryEndpoint (req : String → Nat → Except ε α) (policy : RetryPolicy)
    (cancelAt : Option Nat) (ep : String) :
    Nat → Nat → Nat → AttemptResult α ε × List DispatchEvent × Nat
  | a, 0, dc =>
    match req ep a with
    | .ok v => (.ok v, [.attempt ep a], dc)
    | .error e => (.err e, [.attempt ep a], dc)
  | a, fuel + 1, dc =>
    match req ep a with
    | .ok v => (.ok v, [.attempt ep a], dc)
    | .error _ =>
      if cancelAt = some dc then
        (.cancelled, [.attempt ep a, .cancelObserved], dc)
      else
        let r := tryEndpoint req policy cancelAt ep (a + 1) fuel (dc + 1)
        (r.1, .attempt ep a :: .delayWait (delayFor policy a) :: r.2.1, r.2.2)

/-- Modelled from the spec (§4.1): walk the fallback chain.  `acc` holds
the endpoints already exhausted together with the most recent error
(`none` before any endpoint was attempted, which only happens when the
input chain is empty — the `ConfigurationError` case). -/
def dispatchGo (req : String → Nat → Except ε α) (policy : RetryPolicy)
    (cancelAt : Option Nat) :
    Option (ε × List String) → Nat → List String →
      DispatchOutcome α ε × List DispatchEvent
  | none, _, [] => (.ConfigurationError, [])
  | some (e, tried), _, [] => (.Failure e tried, [])
  | acc, dc, ep :: rest =>
    let t := tryEndpoint req policy cancelAt ep 0 (policy.maxAttempts - 1) dc
    match t.1 with
    | .ok v => (.Success v ep, t.2.1)
    | .cancelled => (.CancelledError, t.2.1)
    | .err e =>
      let tried := (acc.map fun p => p.2).getD []
      let r := dispatchGo req policy cancelAt (some (e, tried ++ [ep])) t.2.2 rest
      (r.1, t.2.1 ++ r.2)

/-- Modelled from the spec (§4.1, §5): `dispatch` with an explicit
cancellation point. -/
def dispatchC (req : String → Nat → Except ε α) (endpoints : List String)
    (policy : RetryPolicy) (cancelAt : Option Nat) :
    DispatchOutcome α ε × List DispatchEvent :=
  dispatchGo req policy cancelAt none 0 endpoints

/-- Modelled from the spec (§4.1): `dispatch(endpoints, requestFactory,
policy)`, never cancelled by the caller. -/
def dispatch (req : String → Nat → Except ε α) (endpoints : List String)
    (policy : RetryPolicy) : DispatchOutcome α ε × List DispatchEvent :=
  dispatchC req endpoints policy none

/-- C7: dispatching with an empty endpoint sequence fails with
`ConfigurationError`, and the empty trace shows that no request attempt
was made against any endpoint. -/
theorem dispatch_empty_configurationError
    (req : String → Nat → Except ε α) (policy : RetryPolicy) :
    dispatch req [] policy = (.ConfigurationError, []) := rfl

/-- C1: when the request factory succeeds on the first endpoint, dispatch
returns `Success` carrying the value and the first endpoint as origin,
and the trace shows a single attempt: no request to any subsequent
endpoint and no retry. -/
theorem dispatch_success_short_circuits
    (req : String → Nat → Except ε α) (ep0 : String) (rest : List String)
    (policy : RetryPolicy) (v : α) (h : req ep0 0 = .ok v) :
    dispatch req (ep0 :: rest) policy = (.Success v ep0, [.attempt ep0 0]) := by
  unfold dispatch dispatchC dispatchGo
  cases hf : policy.maxAttempts - 1 <;> simp [tryEndpoint, h]

/-- Witness for `dispatch_success_short_circuits`. -/
theorem dispatch_success_short_circuits_w :
    dispatch (fun _ _ => (Except.ok 99 : Except String Nat)) ["A", "B"]
        ⟨2, 10, 2, 100⟩ =
      (.Success 99 "A", [.attempt "A" 0]) :=
  dispatch_success_short_circuits _ "A" ["B"] ⟨2, 10, 2, 100⟩ 99 rfl

/-- C6: with `maxAttempts = 0` and a single endpoint whose request fails,
the endpoint is tried exactly once, no delay is waited, and the outcome
is `Failure` after that one attempt. -/
theorem dispatch_maxAttempts_zero
    (req : String → Nat → Except ε α) (ep : String) (policy : RetryPolicy)
    (e : ε) (hmax : policy.maxAttempts = 0) (h : req ep 0 = .error e) :
    dispatch req [ep] policy = (.Failure e [ep], [.attempt ep 0]) := by
  unfold dispatch dispatchC dispatchGo
  simp [tryEndpoint, hmax, h, dispatchGo]

/-- Witness for `dispatch_maxAttempts_zero`. -/
theorem dispatch_maxAttempts_zero_w :
    dispatch (fun _ _ => (Except.error "down" : Except String Nat)) ["X"]
        ⟨0, 10, 2, 100⟩ =
      (.Failure "down" ["X"], [.attempt "X" 0]) :=
  dispatch_maxAttempts_zero _ "X" ⟨0, 10, 2, 100⟩ "down" rfl rfl

theorem attemptsOf_cons_attempt (ep : String) (a : Nat)
    (tr : List DispatchEvent) :
    attemptsOf (.attempt ep a :: tr) = (ep, a) :: attemptsOf tr := rfl

theorem attemptsOf_cons_delay (d : Nat) (tr : List DispatchEvent) :
    attemptsOf (.delayWait d :: tr) = attemptsOf tr := rfl

theorem attemptsOf_append (t1 t2 : List DispatchEvent) :
    attemptsOf (t1 ++ t2) = attemptsOf t1 ++ attemptsOf t2 := by
  simp [attemptsOf]

theorem delaysOf_cons_attempt (ep : String) (a : Nat)
    (tr : List DispatchEvent) :
    delaysOf (.attempt ep a :: tr) = delaysOf tr := rfl

theorem delaysOf_cons_delay (d : Nat) (tr : List DispatchEvent) :
    delaysOf (.delayWait d :: tr) = d :: delaysOf tr := rfl

theorem map_range_succ_left {β : Type} (f : Nat → β) (n : Nat) :
    (List.range (n + 1)).map f = f 0 :: (List.range n).map fun i => f (i + 1) := by
  rw [List.range_succ_eq_map]
  simp [List.map_map, Function.comp]

/-- When every attempt on `ep` fails, the per-endpoint loop returns the
error of the last attempt, records attempts `a, a+1, …, a+fuel` in order,
and waits the backoff delay for each failed attempt except the last. -/
theorem tryEndpoint_allFail (req : String → Nat → Except ε α)
    (policy : RetryPolicy) (ep : String)
    (hfail : ∀ n, ∃ e, req ep n = .error e) :
    ∀ fuel a dc, ∃ e tr dc2,
      tryEndpoint req policy none ep a fuel dc = (.err e, tr, dc2) ∧
      attemptsOf tr = (List.range (fuel + 1)).map (fun i => (ep, a + i)) ∧
      delaysOf tr = (List.range fuel).map (fun i => delayFor policy (a + i)) ∧
      req ep (a + fuel) = .error e := by
  intro fuel
  induction fuel with
  | zero =>
    intro a dc
    obtain ⟨e, he⟩ := hfail a
    refine ⟨e, [.attempt ep a], dc, by simp [tryEndpoint, he], ?_, ?_, ?_⟩
    · simp [attemptsOf, List.range_succ]
    · simp [delaysOf]
    · simpa using he
  | succ fuel ih =>
    intro a dc
    obtain ⟨e0, he0⟩ := hfail a
    obtain ⟨e, tr, dc2, heq, hatt, hdel, hlast⟩ := ih (a + 1) (dc + 1)
    refine ⟨e, .attempt ep a :: .delayWait (delayFor policy a) :: tr, dc2,
      ?_, ?_, ?_, ?_⟩
    · simp [tryEndpoint, he0, heq]
    · rw [attemptsOf_cons_attempt, attemptsOf_cons_delay, hatt,
        map_range_succ_left (fun i => (ep, a + i)) (fuel + 1)]
      refine congrArg₂ _ (by simp) (List.map_congr_left fun i _ => ?_)
      simp [Nat.add_assoc, Nat.add_comm 1 i]
    · rw [delaysOf_cons_attempt, delaysOf_cons_delay, hdel,
        map_range_succ_left (fun i => delayFor policy (a + i)) fuel]
      refine congrArg₂ _ (by simp) (List.map_congr_left fun i _ => ?_)
      simp [Nat.add_assoc, Nat.add_comm 1 i]
    · have h2 : a + (fuel + 1) = a + 1 + fuel := by omega
      rw [h2]
      exact hlast

/-- When every attempt everywhere fails, walking the chain ends in
`Failure` whose attempted-endpoints list extends the accumulator with the
whole remaining chain, and the trace holds `max maxAttempts 1` attempts
per endpoint, in chain order. -/
theorem dispatchGo_allFail (req : String → Nat → Except ε α)
    (policy : RetryPolicy)
    (hfail : ∀ ep n, ∃ e, req ep n = .error e) :
    ∀ (eps : List String) (e0 : ε) (tried : List String) (dc : Nat),
      ∃ e tr,
        dispatchGo req policy none (some (e0, tried)) dc eps =
          (.Failure e (tried ++ eps), tr) ∧
        attemptsOf tr = eps.flatMap fun ep =>
          (List.range (policy.maxAttempts - 1 + 1)).map fun i => (ep, i) := by
  intro eps
  induction eps with
  | nil =>
    intro e0 tried dc
    exact ⟨e0, [], by simp [dispatchGo], by simp [attemptsOf]⟩
  | cons ep rest ih =>
    intro e0 tried dc
    obtain ⟨e1, tr1, dc2, heq1, hatt1, -, -⟩ :=
      tryEndpoint_allFail req policy ep (hfail ep) (policy.maxAttempts - 1) 0 dc
    obtain ⟨e, tr2, heq2, hatt2⟩ := ih e1 (tried ++ [ep]) dc2
    refine ⟨e, tr1 ++ tr2, ?_, ?_⟩
    · simp only [dispatchGo, heq1]
      simp [heq2]
    · rw [attemptsOf_append, hatt1, hatt2]
      simp

/-- C2: when every request attempt fails, dispatch returns `Failure`, its
attempted-endpoints list equals the input sequence in order, and the
trace attempts each endpoint of the sequence exactly
`max policy.maxAttempts 1` times (so exactly once when
`maxAttempts = 0`), in order, with no attempt outside the sequence. -/
theorem dispatch_allFail_exhausts (req : String → Nat → Except ε α)
    (endpoints : List String) (policy : RetryPolicy)
    (hne : endpoints ≠ [])
    (hfail : ∀ ep n, ∃ e, req ep n = .error e) :
    ∃ e tr,
      dispatch req endpoints policy = (.Failure e endpoints, tr) ∧
      attemptsOf tr = endpoints.flatMap fun ep =>
        (List.range (max policy.maxAttempts 1)).map fun i => (ep, i) := by
  have hmax : policy.maxAttempts - 1 + 1 = max policy.maxAttempts 1 := by omega
  cases endpoints with
  | nil => exact absurd rfl hne
  | cons ep rest =>
    obtain ⟨e1, tr1, dc2, heq1, hatt1, -, -⟩ :=
      tryEndpoint_allFail req policy ep (hfail ep) (policy.maxAttempts - 1) 0 0
    obtain ⟨e, tr2, heq2, hatt2⟩ := dispatchGo_allFail req policy hfail rest e1 [ep] dc2
    refine ⟨e, tr1 ++ tr2, ?_, ?_⟩
    · unfold dispatch dispatchC
      simp only [dispatchGo, heq1]
      simp [heq2]
    · rw [attemptsOf_append, hatt1, hatt2, hmax]
      simp

/-- Witness for `dispatch_allFail_exhausts`: two endpoints, two attempts
each. -/
theorem dispatch_allFail_exhausts_w :
    ∃ e tr,
      dispatch (fun _ _ => (Except.error "down" : Except String Nat))
          ["A", "B"] ⟨2, 10, 2, 100⟩ =
        (.Failure e ["A", "B"], tr) ∧
      attemptsOf tr = ["A", "B"].flatMap fun ep =>
        (List.range (max 2 1)).map fun i => (ep, i) :=
  dispatch_allFail_exhausts _ ["A", "B"] ⟨2, 10, 2, 100⟩ (by simp)
    (fun _ _ => ⟨"down", rfl⟩)

/-- C5: the inter-retry delay after failed attempt `a` on an endpoint is
`min(initialDelay * delayGrowth^a, maxDelay)` (shown on the trace of the
per-endpoint retry loop), and with `delayGrowth > 1` the delays are
monotonically non-decreasing across successive attempts and never exceed
`policy.maxDelay`. -/
theorem dispatch_delay_schedule (policy : RetryPolicy)
    (hg : 1 < policy.delayGrowth) :
    (∀ a, delayFor policy a =
      min (policy.initialDelay * policy.delayGrowth ^ a) policy.maxDelay) ∧
    (∀ a, delayFor policy a ≤ delayFor policy (a + 1)) ∧
    (∀ a, delayFor policy a ≤ policy.maxDelay) ∧
    (∀ (req : String → Nat → Except ε α) (ep : String),
      (∀ n, ∃ e, req ep n = .error e) → ∀ fuel dc,
        delaysOf (tryEndpoint req policy none ep 0 fuel dc).2.1 =
          (List.range fuel).map (delayFor policy)) := by
  refine ⟨fun a => rfl, ?_, fun a => Nat.min_le_right _ _, ?_⟩
  · intro a
    exact min_le_min
      (Nat.mul_le_mul_left _
        (Nat.pow_le_pow_right (Nat.le_of_lt hg) (Nat.le_succ a)))
      (Nat.le_refl _)
  · intro req ep hfail fuel dc
    obtain ⟨e, tr, dc2, heq, -, hdel, -⟩ :=
      tryEndpoint_allFail req policy ep hfail fuel 0 dc
    rw [heq]
    simpa using hdel

/-- Witness for `dispatch_delay_schedule`: growth 2, delays 10 then 20,
capped by 100. -/
theorem dispatch_delay_schedule_w :
    delayFor ⟨3, 10, 2, 100⟩ 0 ≤ delayFor ⟨3, 10, 2, 100⟩ 1 ∧
    delayFor ⟨3, 10, 2, 100⟩ 5 ≤ (100 : Nat) ∧
    delaysOf (tryEndpoint (fun _ _ => (Except.error "down" : Except String Nat))
        ⟨3, 10, 2, 100⟩ none "X" 0 2 0).2.1 =
      (List.range 2).map (delayFor ⟨3, 10, 2, 100⟩) :=
  ⟨(dispatch_delay_schedule (α := Nat) (ε := String) ⟨3, 10, 2, 100⟩
      (by decide)).2.1 0,
   (dispatch_delay_schedule (α := Nat) (ε := String) ⟨3, 10, 2, 100⟩
      (by decide)).2.2.1 5,
   (dispatch_delay_schedule ⟨3, 10, 2, 100⟩ (by decide)).2.2.2
     (fun _ _ => (Except.error "down" : Except String Nat)) "X"
     (fun _ => ⟨"down", rfl⟩) 2 0⟩

/-- Without cancellation, the per-endpoint loop ends in `.ok` or `.err`,
and its result is exactly the outcome of the last attempt it recorded. -/
theorem tryEndpoint_last (req : String → Nat → Except ε α)
    (policy : RetryPolicy) (ep : String) :
    ∀ fuel a dc, ∃ r1 tr1 dc1 alast,
      tryEndpoint req policy none ep a fuel dc = (r1, tr1, dc1) ∧
      (attemptsOf tr1).getLast? = some (ep, alast) ∧
      ((∃ v, req ep alast = .ok v ∧ r1 = .ok v) ∨
       (∃ e, req ep alast = .error e ∧ r1 = .err e)) := by
  intro fuel
  induction fuel with
  | zero =>
    intro a dc
    rcases hreq : req ep a with e | v
    · exact ⟨.err e, [.attempt ep a], dc, a, by simp [tryEndpoint, hreq],
        by simp [attemptsOf], Or.inr ⟨e, hreq, rfl⟩⟩
    · exact ⟨.ok v, [.attempt ep a], dc, a, by simp [tryEndpoint, hreq],
        by simp [attemptsOf], Or.inl ⟨v, hreq, rfl⟩⟩
  | succ fuel ih =>
    intro a dc
    rcases hreq : req ep a with e | v
    · obtain ⟨r1, tr1, dc1, alast, heq, hlast, hres⟩ := ih (a + 1) (dc + 1)
      refine ⟨r1, .attempt ep a :: .delayWait (delayFor policy a) :: tr1, dc1,
        alast, by simp [tryEndpoint, hreq, heq], ?_, hres⟩
      rw [attemptsOf_cons_attempt, attemptsOf_cons_delay]
      rcases hcase : attemptsOf tr1 with _ | ⟨y, ys⟩
      · rw [hcase] at hlast; exact absurd hlast (by simp)
      · rw [hcase] at hlast
        rw [List.getLast?_cons_cons]
        exact hlast
    · exact ⟨.ok v, [.attempt ep a], dc, a, by simp [tryEndpoint, hreq],
        by simp [attemptsOf], Or.inl ⟨v, hreq, rfl⟩⟩

/-- Without cancellation, walking a chain whose accumulator already holds
an error ends in `Success` or in a `Failure` that carries either the
accumulated error (when the chain is empty) or the error of the most
recent attempt recorded in the trace. -/
theorem dispatchGo_terminal (req : String → Nat → Except ε α)
    (policy : RetryPolicy) :
    ∀ (eps : List String) (e0 : ε) (tried0 : List String) (dc : Nat),
      ∃ out tr,
        dispatchGo req policy none (some (e0, tried0)) dc eps = (out, tr) ∧
        ((∃ v ep2, out = .Success v ep2) ∨
         (∃ e tried, out = .Failure e tried ∧
           ((attemptsOf tr = [] ∧ e = e0) ∨
            (∃ ep2 a2, (attemptsOf tr).getLast? = some (ep2, a2) ∧
              req ep2 a2 = .error e)))) := by
  intro eps
  induction eps with
  | nil =>
    intro e0 tried0 dc
    exact ⟨.Failure e0 tried0, [], by simp [dispatchGo],
      Or.inr ⟨e0, tried0, rfl, Or.inl ⟨rfl, rfl⟩⟩⟩
  | cons ep rest ih =>
    intro e0 tried0 dc
    obtain ⟨r1, tr1, dc1, alast, heq1, hlast1, hres1⟩ :=
      tryEndpoint_last req policy ep (policy.maxAttempts - 1) 0 dc
    rcases hres1 with ⟨v, hv, hr1⟩ | ⟨e, he, hr1⟩
    · subst hr1
      exact ⟨.Success v ep, tr1, by simp [dispatchGo, heq1],
        Or.inl ⟨v, ep, rfl⟩⟩
    · subst hr1
      obtain ⟨out2, tr2, heq2, hP2⟩ := ih e (tried0 ++ [ep]) dc1
      refine ⟨out2, tr1 ++ tr2, ?_, ?_⟩
      · simp only [dispatchGo, heq1]
        simp [heq2]
      · rcases hP2 with hsucc | ⟨e2, tried2, hout2, hsub⟩
        · exact Or.inl hsucc
        · refine Or.inr ⟨e2, tried2, hout2, Or.inr ?_⟩
          rcases hsub with ⟨hempty, he2⟩ | ⟨ep3, a3, hlast3, hereq3⟩
          · subst he2
            refine ⟨ep, alast, ?_, he⟩
            rw [attemptsOf_append, hempty, List.append_nil]
            exact hlast1
          · refine ⟨ep3, a3, ?_, hereq3⟩
            rw [attemptsOf_append]
            rw [List.getLast?_append_of_ne_nil]
            · exact hlast3
            · intro hnil
              rw [hnil] at hlast3
              exact absurd hlast3 (by simp)

/-- C3: per-attempt failures are absorbed inside the Dispatcher: for every
nonempty endpoint sequence the caller-visible outcome is either `Success`
or a single terminal `Failure`, and in the `Failure` case the carried
error is exactly the error produced by the most recent attempt recorded
in the trace. -/
theorem dispatch_terminal_outcome (req : String → Nat → Except ε α)
    (endpoints : List String) (policy : RetryPolicy)
    (hne : endpoints ≠ []) :
    ∃ out tr,
      dispatch req endpoints policy = (out, tr) ∧
      ((∃ v ep2, out = .Success v ep2) ∨
       (∃ e tried ep2 a2, out = .Failure e tried ∧
         (attemptsOf tr).getLast? = some (ep2, a2) ∧
         req ep2 a2 = .error e)) := by
  cases endpoints with
  | nil => exact absurd rfl hne
  | cons ep rest =>
    obtain ⟨r1, tr1, dc1, alast, heq1, hlast1, hres1⟩ :=
      tryEndpoint_last req policy ep (policy.maxAttempts - 1) 0 0
    rcases hres1 with ⟨v, hv, hr1⟩ | ⟨e, he, hr1⟩
    · subst hr1
      refine ⟨.Success v ep, tr1, ?_, Or.inl ⟨v, ep, rfl⟩⟩
      unfold dispatch dispatchC
      simp [dispatchGo, heq1]
    · subst hr1
      obtain ⟨out2, tr2, heq2, hP2⟩ :=
        dispatchGo_terminal req policy rest e [ep] dc1
      refine ⟨out2, tr1 ++ tr2, ?_, ?_⟩
      · unfold dispatch dispatchC
        simp only [dispatchGo, heq1]
        simp [heq2]
      · rcases hP2 with hsucc | ⟨e2, tried2, hout2, hsub⟩
        · exact Or.inl hsucc
        · refine Or.inr ⟨e2, tried2, ?_⟩
          rcases hsub with ⟨hempty, he2⟩ | ⟨ep3, a3, hlast3, hereq3⟩
          · subst he2
            refine ⟨ep, alast, hout2, ?_, he⟩
            rw [attemptsOf_append, hempty, List.append_nil]
            exact hlast1
          · refine ⟨ep3, a3, hout2, ?_, hereq3⟩
            rw [attemptsOf_append]
            rw [List.getLast?_append_of_ne_nil]
            · exact hlast3
            · intro hnil
              rw [hnil] at hlast3
              exact absurd hlast3 (by simp)

/-- Witness for `dispatch_terminal_outcome`: one endpoint failing on the
first attempt, succeeding on the retry. -/
theorem dispatch_terminal_outcome_w :
    ∃ out tr,
      dispatch (fun _ a => if a = 0 then (Except.error "down" : Except String Nat)
          else .ok 7) ["A"] ⟨2, 10, 2, 100⟩ = (out, tr) ∧
      ((∃ v ep2, out = .Success v ep2) ∨
       (∃ e tried ep2 a2, out = .Failure e tried ∧
         (attemptsOf tr).getLast? = some (ep2, a2) ∧
         (fun (_ : String) a => if a = 0 then (Except.error "down" : Except String Nat)
          else .ok 7) ep2 a2 = .error e)) :=
  dispatch_terminal_outcome _ ["A"] ⟨2, 10, 2, 100⟩ (by simp)

/-- Cancellation discipline of the per-endpoint loop: the trace contains
the cancellation observation exactly when the loop result is
`.cancelled`, and in that case the observation is the final event of the
trace (nothing — in particular no attempt — happens after it). -/
theorem tryEndpoint_cancel (req : String → Nat → Except ε α)
    (policy : RetryPolicy) (cancelAt : Option Nat) (ep : String) :
    ∀ fuel a dc, ∃ r1 tr1 dc1,
      tryEndpoint req policy cancelAt ep a fuel dc = (r1, tr1, dc1) ∧
      (DispatchEvent.cancelObserved ∈ tr1 ↔ r1 = .cancelled) ∧
      (r1 = .cancelled → ∃ pre, tr1 = pre ++ [.cancelObserved] ∧
        DispatchEvent.cancelObserved ∉ pre) := by
  intro fuel
  induction fuel with
  | zero =>
    intro a dc
    rcases hreq : req ep a with e | v
    · exact ⟨.err e, [.attempt ep a], dc, by simp [tryEndpoint, hreq],
        by simp, by simp⟩
    · exact ⟨.ok v, [.attempt ep a], dc, by simp [tryEndpoint, hreq],
        by simp, by simp⟩
  | succ fuel ih =>
    intro a dc
    rcases hreq : req ep a with e | v
    · by_cases hc : cancelAt = some dc
      · refine ⟨.cancelled, [.attempt ep a, .cancelObserved], dc,
          by simp [tryEndpoint, hreq, hc], by simp, ?_⟩
        intro _
        exact ⟨[.attempt ep a], rfl, by simp⟩
      · obtain ⟨r1, tr1, dc1, heq, hiff, hpre⟩ := ih (a + 1) (dc + 1)
        refine ⟨r1, .attempt ep a :: .delayWait (delayFor policy a) :: tr1, dc1,
          by simp [tryEndpoint, hreq, hc, heq], by simp [hiff], ?_⟩
        intro hr1
        obtain ⟨pre, hpre1, hpre2⟩ := hpre hr1
        refine ⟨.attempt ep a :: .delayWait (delayFor policy a) :: pre, ?_, ?_⟩
        · rw [hpre1]; rfl
        · simp [hpre2]
    · exact ⟨.ok v, [.attempt ep a], dc, by simp [tryEndpoint, hreq],
        by simp, by simp⟩

/-- Cancellation discipline of the chain walk: if the cancellation
observation appears in the trace, the outcome is `CancelledError` and the
observation is the final event of the trace. -/
theorem dispatchGo_cancel (req : String → Nat → Except ε α)
    (policy : RetryPolicy) (cancelAt : Option Nat) :
    ∀ (eps : List String) (acc : Option (ε × List String)) (dc : Nat),
      ∃ out tr,
        dispatchGo req policy cancelAt acc dc eps = (out, tr) ∧
        (DispatchEvent.cancelObserved ∈ tr →
          out = .CancelledError ∧
          ∃ pre, tr = pre ++ [.cancelObserved] ∧
            DispatchEvent.cancelObserved ∉ pre) := by
  intro eps
  induction eps with
  | nil =>
    rintro (_ | ⟨e, tried⟩) dc
    · exact ⟨.ConfigurationError, [], by simp [dispatchGo], by simp⟩
    · exact ⟨.Failure e tried, [], by simp [dispatchGo], by simp⟩
  | cons ep rest ih =>
    intro acc dc
    obtain ⟨r1, tr1, dc1, heq1, hiff1, hpre1⟩ :=
      tryEndpoint_cancel req policy cancelAt ep (policy.maxAttempts - 1) 0 dc
    cases r1 with
    | ok v =>
      refine ⟨.Success v ep, tr1, by simp [dispatchGo, heq1], ?_⟩
      intro hmem
      exact absurd (hiff1.mp hmem) (by simp)
    | cancelled =>
      refine ⟨.CancelledError, tr1, by simp [dispatchGo, heq1], ?_⟩
      intro _
      exact ⟨rfl, hpre1 rfl⟩
    | err e =>
      obtain ⟨out2, tr2, heq2, himp2⟩ :=
        ih (some (e, ((acc.map fun p => p.2).getD []) ++ [ep])) dc1
      refine ⟨out2, tr1 ++ tr2, ?_, ?_⟩
      · simp only [dispatchGo, heq1]
        simp [heq2]
      · intro hmem
        rcases List.mem_append.mp hmem with h1 | h2
        · exact absurd (hiff1.mp h1) (by simp)
        · obtain ⟨hout2, pre2, hp2, hnp2⟩ := himp2 h2
          refine ⟨hout2, tr1 ++ pre2, ?_, ?_⟩
          · rw [hp2, List.append_assoc]
          · intro hbad
            rcases List.mem_append.mp hbad with hb1 | hb2
            · exact absurd (hiff1.mp hb1) (by simp)
            · exact hnp2 hb2

/-- C8: a dispatch cancelled while waiting out an inter-retry delay has
outcome `CancelledError`, and the cancellation observation is the final
event of the trace: no request attempt is issued after the cancellation
is observed. -/
theorem dispatch_cancelled_stops (req : String → Nat → Except ε α)
    (endpoints : List String) (policy : RetryPolicy) (k : Nat)
    (h : DispatchEvent.cancelObserved ∈
      (dispatchC req endpoints policy (some k)).2) :
    (dispatchC req endpoints policy (some k)).1 = .CancelledError ∧
    ∃ pre, (dispatchC req endpoints policy (some k)).2 =
        pre ++ [.cancelObserved] ∧
      DispatchEvent.cancelObserved ∉ pre := by
  obtain ⟨out, tr, heq, himp⟩ :=
    dispatchGo_cancel req policy (some k) endpoints none 0
  have hd : dispatchC req endpoints policy (some k) = (out, tr) := heq
  rw [hd] at h ⊢
  exact himp h

/-- Witness for `dispatch_cancelled_stops`: one always-failing endpoint
with one allowed retry, cancelled during the first delay. -/
theorem dispatch_cancelled_stops_w :
    (dispatchC (fun _ _ => (Except.error "down" : Except String Nat)) ["X"]
        ⟨2, 10, 2, 100⟩ (some 0)).1 = .CancelledError ∧
    ∃ pre, (dispatchC (fun _ _ => (Except.error "down" : Except String Nat))
        ["X"] ⟨2, 10, 2, 100⟩ (some 0)).2 = pre ++ [.cancelObserved] ∧
      DispatchEvent.cancelObserved ∉ pre :=
  dispatch_cancelled_stops _ ["X"] ⟨2, 10, 2, 100⟩ 0 (by decide)

end RpcErrorHandler
